import Mathlib

/-!
Verification development for the wikitext discussion engine
(`src/js/Page.js`, `src/js/Autocomplete.js`, `src/js/options.js`).

Strings are modelled as `List Char` (`LC`).  JavaScript string methods are
translated as explicit functions on `List Char`; the regular expressions the
code uses are translated as explicit scanning functions mirroring the
regex-engine behaviour (leftmost match, laziness, multiline anchors, the
`lastIndex` bookkeeping of `/g` loops).
-/

abbrev LC := List Char

/-- JavaScript whitespace (the set recognised by `String.prototype.trim` /
`trimStart`): space, tab, LF, VT, FF, CR, NBSP, BOM and the Unicode `Zs`
class plus the line/paragraph separators. -/
def isWs (c : Char) : Bool :=
  c.toNat = 32 || c.toNat = 9 || c.toNat = 10 || c.toNat = 11 || c.toNat = 12 ||
  c.toNat = 13 || c.toNat = 160 || c.toNat = 5760 ||
  (8192 ≤ c.toNat && c.toNat ≤ 8202) || c.toNat = 8232 || c.toNat = 8233 ||
  c.toNat = 8239 || c.toNat = 8287 || c.toNat = 12288 || c.toNat = 65279

/-- Decimal digit, as matched by the regex class `\d`. -/
def isDigitB (c : Char) : Bool :=
  48 ≤ c.toNat && c.toNat ≤ 57

/-- ECMAScript `LineTerminator`: LF, CR, LS (U+2028), PS (U+2029).  Multiline
`^` fires after any of these, multiline `$` fires before any of these, and
`.` matches none of them. -/
def isLineTerm (c : Char) : Bool :=
  c.toNat = 10 || c.toNat = 13 || c.toNat = 8232 || c.toNat = 8233

/-- Whether a multiline `^` assertion holds at a scan position: `prev` is the
character before the position (`none` at the string start). -/
def atLineStart (prev : Option Char) : Bool :=
  match prev with
  | none => true
  | some c => isLineTerm c

/-- `begs s p` holds when the string `s` begins with `p`
(JavaScript `s.startsWith(p)`). -/
def begs (s p : LC) : Bool :=
  match p, s with
  | [], _ => true
  | _ :: _, [] => false
  | a :: p, b :: s => a = b && begs s p

/-- `subIn pat s` holds when `pat` occurs contiguously inside `s`
(JavaScript `s.includes(pat)`). -/
def subIn (pat s : LC) : Bool :=
  begs s pat ||
  match s with
  | [] => false
  | _ :: r => subIn pat r

/-- JavaScript `String.prototype.trimStart`. -/
def jsTrimStart (s : LC) : LC := s.dropWhile isWs

/-- JavaScript `String.prototype.trim`. -/
def jsTrim (s : LC) : LC :=
  ((s.dropWhile isWs).reverse.dropWhile isWs).reverse

/-- Split a string at every occurrence of the character `c`
(JavaScript `s.split(c)`). -/
def splitOnCh (c : Char) : LC → List LC
  | [] => [[]]
  | a :: r =>
    if a = c then [] :: splitOnCh c r
    else
      match splitOnCh c r with
      | l :: ls => (a :: l) :: ls
      | [] => [[a]]

/-- Join a list of strings with the separator character `c`
(JavaScript `xs.join(c)`). -/
def joinCh (c : Char) : List LC → LC
  | [] => []
  | [x] => x
  | x :: xs => x ++ c :: joinCh c xs

/-- Modelled from the spec: `hideComments` of the Wikitext Normalizer
(`hideHtmlComments` in the repository's `wikitext.js`, which is not among the
given sources).  Every `<!-- ... -->` span is replaced by a same-length run of
the placeholder character `\x01`; an unterminated `<!--` hides everything
after it; characters outside comment spans are unchanged. -/
def hideHtmlComments : LC → LC
  | [] => []
  | '<' :: '!' :: '-' :: '-' :: rest =>
    '\x01' :: '\x01' :: '\x01' :: '\x01' :: hideInComment rest
  | c :: r => c :: hideHtmlComments r
where
  /-- State after `<!--` has been seen: replace until past the closing
  `-->`, or to the end of the string. -/
  hideInComment : LC → LC
    | [] => []
    | '-' :: '-' :: '>' :: rest => '\x01' :: '\x01' :: '\x01' :: hideHtmlComments rest
    | _ :: r => '\x01' :: hideInComment r

/-!  Heading scans.

`Page#modifyCode` locates the first section boundary with
`adjustedPageCode.search(/^(=+).*?\1/m)`; `Page#analyzeNewTopicPlacement`
iterates `/^==[^=].*?==[ \t]*(?:<!--[^]*?-->[ \t]*)*\n/gm`.  Both are
translated below as explicit scans. -/

/-- Whether `/(=+).*?\1/` matches at the start of a line whose text (up to the
next line terminator, which `.` cannot cross) follows.  Because the group can
backtrack down to a single `=`, this holds exactly when the line starts with
`=` and another `=` occurs later in the same line. -/
def lineMatchesAny (s : LC) : Bool :=
  match s with
  | '=' :: rest => (rest.takeWhile (fun c => !isLineTerm c)).contains '='
  | _ => false

/-- Match attempt of `/^(=+).*?\1/m` at one scan position: `prev` is the
character before the position (`none` at the string start); the multiline `^`
assertion requires it to be absent or a line terminator. -/
def anyHeadB (prev : Option Char) (s : LC) : Bool :=
  atLineStart prev && lineMatchesAny s

/-- Left-to-right scan of `String.prototype.search` with `/^(=+).*?\1/m`:
returns the index of the leftmost position where `anyHeadB` holds. -/
def searchAuxAny (prev : Option Char) (s : LC) (pos : Nat) : Option Nat :=
  if anyHeadB prev s then some pos
  else
    match s with
    | [] => none
    | c :: r => searchAuxAny (some c) r (pos + 1)

/-- `adjustedPageCode.search(/^(=+).*?\1/m)` — `none` models the `-1` result. -/
def searchAnyHeading (s : LC) : Option Nat :=
  searchAuxAny none s 0

/-- Specification-side restatement of "`/^(=+).*?\1/m` matches at offset `i`":
peel `i` characters, tracking the previous character for the `^` assertion. -/
def posMatchB (prev : Option Char) (s : LC) (i : Nat) : Bool :=
  match i, s with
  | 0, _ => anyHeadB prev s
  | _ + 1, [] => false
  | i + 1, c :: r => posMatchB (some c) r i

/-! The level-2 heading regex `/^==[^=].*?==[ \t]*(?:<!--[^]*?-->[ \t]*)*\n/gm`.
Each matcher returns the number of characters consumed. -/

/-- Lazy `[^]*?-->`: consume up to and including the first `-->`;
returns the consumed length and the remainder.  (The engine's backtracking
to a later `-->` on overall failure is omitted: every scan below runs on
`hideHtmlComments` output, where no `<!--` survives, so no comment group —
and hence no such backtracking — is ever reachable.) -/
def h2Body : LC → Option (Nat × LC)
  | [] => none
  | c :: r =>
    if c = '-' && begs r ['-', '>'] then some (3, r.drop 2)
    else (h2Body r).map (fun p => (p.1 + 1, p.2))

/-- Tail `(?:<!--[^]*?-->[ \t]*)*\n`: greedy comment groups (each `<!--`, a
lazy body up to the first `-->`, then spaces/tabs), then a newline.  `fuel`
only bounds the recursion; every comment group consumes at least seven
characters, so the `s.length + 1` supplied by `h2Groups` never runs out. -/
def h2GroupsF : Nat → LC → Option Nat
  | 0, _ => none
  | _ + 1, '\n' :: _ => some 1
  | fuel + 1, '<' :: '!' :: '-' :: '-' :: rest =>
    match h2Body rest with
    | none => none
    | some (n, rem) =>
      let sp := rem.takeWhile (fun c => c = ' ' || c = '\t')
      match h2GroupsF fuel (rem.drop sp.length) with
      | none => none
      | some m => some (4 + n + sp.length + m)
  | _, _ => none

/-- `(?:<!--[^]*?-->[ \t]*)*\n` at `s`. -/
def h2Groups (s : LC) : Option Nat :=
  h2GroupsF (s.length + 1) s

/-- Closing part `==[ \t]*(?:<!--[^]*?-->[ \t]*)*\n`. -/
def h2Close (s : LC) : Option Nat :=
  match s with
  | '=' :: '=' :: rest =>
    let sp := rest.takeWhile (fun c => c = ' ' || c = '\t')
    match h2Groups (rest.drop sp.length) with
    | none => none
    | some m => some (2 + sp.length + m)
  | _ => none

/-- Lazy `.*?` before the closing part: try the close at each offset,
consuming one character on failure — `.` cannot consume a line terminator. -/
def h2Tail : LC → Option Nat
  | [] => none
  | c :: r =>
    match h2Close (c :: r) with
    | some n => some n
    | none => if isLineTerm c then none else (h2Tail r).map (· + 1)

/-- Match attempt of the level-2 heading regex at one position (after the `^`
assertion): `==`, one non-`=` character, then `h2Tail`. -/
def matchH2 (s : LC) : Option Nat :=
  match s with
  | '=' :: '=' :: c :: rest =>
    if c = '=' then none else (h2Tail rest).map (· + 3)
  | _ => none

/-- The `/gm` exec loop over the level-2 heading regex: scan left to right;
after a match of length `n` at index `p`, resume at `p + n` (regex
`lastIndex`).  Returns the list of match start indices in order.  `fuel`
bounds the recursion; `execAll` supplies `s.length + 1`, which is enough since
every step advances. -/
def execAllAux : Nat → Option Char → LC → Nat → List Nat
  | 0, _, _, _ => []
  | fuel + 1, prev, s, pos =>
    if atLineStart prev then
      match matchH2 s with
      | some n => pos :: execAllAux fuel (some '\n') (s.drop n) (pos + n)
      | none =>
        match s with
        | [] => []
        | c :: r => execAllAux fuel (some c) r (pos + 1)
    else
      match s with
      | [] => []
      | c :: r => execAllAux fuel (some c) r (pos + 1)

/-- All match start indices of the level-2 heading regex on `s`. -/
def execAll (s : LC) : List Nat :=
  execAllAux (s.length + 1) none s 0

/-!  `Page#modifyCode`. -/

/-- JavaScript `slice` index resolution for a `Nat`-length string and a
possibly negative index. -/
def jsIdx (len : Nat) (i : Int) : Nat :=
  if i < 0 then (max (len + i) 0).toNat else min i.toNat len

/-- `Page#modifyCode(pageCode, { commentForm })`.  The comment wikitext
(`commentCode`, produced by the `commentTextToCode` collaborator) and the
placement flag (`commentForm.isNewTopicOnTop`) are passed directly.  Returns
`(newPageCode, codeBeforeInsertion)`. -/
def modifyCode (pageCode commentCode : LC) (isNewTopicOnTop : Bool) : LC × LC :=
  if isNewTopicOnTop then
    let adjustedPageCode := hideHtmlComments pageCode
    let firstSectionStartIndex : Int :=
      match searchAnyHeading adjustedPageCode with
      | some i => (i : Int)
      | none => -1
    let codeBeforeInsertion := pageCode.take (jsIdx pageCode.length firstSectionStartIndex)
    let codeAfterInsertion := pageCode.drop (jsIdx pageCode.length firstSectionStartIndex)
    (codeBeforeInsertion ++ commentCode ++ '\n' :: codeAfterInsertion, codeBeforeInsertion)
  else
    let codeBeforeInsertion := jsTrimStart (pageCode ++ ['\n'])
    (codeBeforeInsertion ++ commentCode, codeBeforeInsertion)

/-- Definition following the specification's words for the bottom placement of
`computeNewCode`: "trims leading whitespace from `existingCode`, ensures
exactly one trailing newline, and appends `newCommentWikitext` directly". -/
def specModifyBottom (pageCode commentCode : LC) : LC :=
  let trimmed := jsTrimStart pageCode
  ((trimmed.reverse.dropWhile (fun c => c = '\n')).reverse ++ ['\n']) ++ commentCode

/-- Definition following the specification's words for the top placement of
`computeNewCode`: the boundary is "detected as in step 2 above", i.e. the
first match of the level-2 section heading pattern
`/^==[^=].*?==[ \t]*(?:<!--[^]*?-->[ \t]*)*\n/m`, located on the
comment-hidden variant and sliced from the original. -/
def specModifyTop (pageCode commentCode : LC) : LC :=
  match (execAll (hideHtmlComments pageCode)).head? with
  | some i => pageCode.take i ++ commentCode ++ '\n' :: pageCode.drop i
  | none => pageCode ++ commentCode

/-!  `Page#analyzeNewTopicPlacement`. -/

/-- The accumulation loop of `analyzeNewTopicPlacement`
(`previousDate` / `difference` over the per-section first timestamps):
`difference += date > previousDate ? -1 : 1`, dateless sections skipped. -/
def tallyLoop : Option Int → Int → List (Option Int) → Int
  | _, difference, [] => difference
  | previousDate, difference, date? :: rest =>
    match date? with
    | none => tallyLoop previousDate difference rest
    | some date =>
      match previousDate with
      | none => tallyLoop (some date) difference rest
      | some previous =>
        tallyLoop (some date) (difference + if date > previous then -1 else 1) rest

/-- `Page#analyzeNewTopicPlacement`.  `override` is the per-site
`cd.config.areNewTopicsOnTop` collaborator result (`none` = no override);
`findDate i` abstracts the `findFirstTimestamp` / `parseTimestamp`
collaborators applied to `this.code.slice(i)` (their sources are not among
the given files; per the spec the composition is pure, so it is passed as a
function).  The `Except` error models the uncaught `TypeError` of reading
`.index` on a `null` match result.  On success returns
`(areNewTopicsOnTop, firstSectionStartIndex)`. -/
def analyzeNewTopicPlacement (override : Option Bool) (code : LC) (namespace0 : Int)
    (findDate : Nat → Option Int) : Except String (Bool × Option Nat) :=
  let adjustedCode := hideHtmlComments code
  let ms := execAll adjustedCode
  if override ≠ some false then
    match ms.head? with
    | none => .error "TypeError: Cannot read property of null"
    | some firstIdx =>
      match override with
      | some b => .ok (b, some firstIdx)
      | none =>
        let difference := tallyLoop none 0 (ms.map findDate)
        .ok (if difference = 0 then namespace0 % 2 = 0 else difference > 0, some firstIdx)
  else
    .ok (false, none)

/-- Pairwise tally over the dated sections only: the form the code's loop
actually computes (`+1` when the lower section's date is not later than the
previous dated section's, `-1` when it is later). -/
def pairTally : List Int → Int
  | [] => 0
  | [_] => 0
  | a :: b :: r => (if b > a then -1 else 1) + pairTally (b :: r)

/-- Definition following the specification's words for the placement tally:
"+1 if chronology runs newest-to-oldest between consecutive sections (top is
newer), −1 if oldest-to-newest, 0 if a pair is incomparable (missing
timestamp)", over consecutive sections. -/
def specPairContrib : Option Int → Option Int → Int
  | some x, some y => if x > y then 1 else if y > x then -1 else 0
  | _, _ => 0

/-- Specification-side tally over consecutive sections. -/
def specTally (dates : List (Option Int)) : Int :=
  (dates.zip dates.tail).foldl (fun acc p => acc + specPairContrib p.1 p.2) 0

/-- Specification-side placement decision: tally strictly positive → top,
negative → bottom, zero → `namespace is even`. -/
def specPlacement (dates : List (Option Int)) (namespace0 : Int) : Bool :=
  if specTally dates > 0 then true
  else if specTally dates < 0 then false
  else namespace0 % 2 = 0

/-!  The Autocomplete engine (`Autocomplete.js`). -/

/-- Case-insensitive canonicalisation (the `i` regex flag): per-character
lowering. -/
def lowerLC (s : LC) : LC := s.map Char.toLower

/-- `containsRegexp.test(item)` — the query text is passed through
`mw.util.escapeRegExp`, so this is case-insensitive containment. -/
def ctnsCI (text item : LC) : Bool := subIn (lowerLC text) (lowerLC item)

/-- `startsWithRegexp.test(item)` — case-insensitive "match at position 0". -/
def begsCI (text item : LC) : Bool := begs (lowerLC item) (lowerLC text)

/-- The comparator passed to `Array.prototype.sort` in `Autocomplete.search`. -/
def searchCmp (text item1 item2 : LC) : Int :=
  if begsCI text item1 && !begsCI text item2 then -1
  else if begsCI text item2 && !begsCI text item1 then 1
  else 0

/-- Insertion step of a stable comparator sort: the element being inserted
came before the current list, so it passes an element only when the
comparator says it must come strictly later. -/
def insCmp (cmp : LC → LC → Int) (x : LC) : List LC → List LC
  | [] => [x]
  | y :: ys => if cmp x y ≤ 0 then x :: y :: ys else y :: insCmp cmp x ys

/-- `Array.prototype.sort(cmp)` — required by the language spec to be stable;
modelled as a stable insertion sort. -/
def jsSort (cmp : LC → LC → Int) (l : List LC) : List LC :=
  l.foldr (insCmp cmp) []

/-- `Autocomplete.search(text, list)`: case-insensitive containment filter,
then the two-group comparator sort. -/
def acSearch (text : LC) (list : List LC) : List LC :=
  jsSort (searchCmp text) (list.filter (fun item => ctnsCI text item))

/-- Modelled from the spec: `removeDuplicates` from the repository's
`util.js` (not among the given sources) — removes duplicate elements,
keeping first occurrences. -/
def removeDupl : List (Option LC) → List (Option LC)
  | [] => []
  | x :: r => x :: removeDupl (r.filter (fun y => y ≠ x))
termination_by l => l.length
decreasing_by
  have := List.length_filter_le (fun y => decide (y ≠ x)) r
  simp only [List.length_cons]
  omega

/-- `prepareValues` (keys only): `removeDuplicates(arr).filter(defined)`;
the per-item `transform` / `getEndOffset` collaborators shape the inserted
snippet and do not affect which candidates are delivered. -/
def prepVals (arr : List (Option LC)) : List LC :=
  (removeDupl arr).filterMap id

/-- `values[9] = text` on a JavaScript array: pad with holes (`none`) to
index 9 if needed, then set index 9, keeping any later elements. -/
def setTenth (values : List (Option LC)) (text : LC) : List (Option LC) :=
  let padded := if values.length < 10 then values ++ List.replicate (10 - values.length) none
                else values
  padded.set 9 (some text)

/-- Per-channel autocomplete state: the `snapshot` staleness fence, the last
remote result set (`cache`), the per-text memo (`byText`, holding the arrays
as stored — holes included), and the channel's `default` list (only the
mentions channel has one). -/
structure Chan where
  snapshot : LC
  cache : List LC
  byText : List (LC × List (Option LC))
  dflt : List LC
deriving DecidableEq, Repr

/-- Lookup in the `byText` memo (exact text key). -/
def btGet (bt : List (LC × List (Option LC))) (text : LC) : Option (List (Option LC)) :=
  match bt.find? (fun p => p.1 = text) with
  | some p => some p.2
  | none => none

/-- `byText[text] = values` (overwrite or add). -/
def btPut (bt : List (LC × List (Option LC))) (text : LC) (values : List (Option LC)) :
    List (LC × List (Option LC)) :=
  match bt.find? (fun p => p.1 = text) with
  | some _ => bt.map (fun p => if p.1 = text then (text, values) else p)
  | none => bt ++ [(text, values)]

/-- Result of the synchronous part of a channel's `values(text, callback)`
function: the state after it runs, the payloads passed to `callback` (in
order), and whether a remote lookup was issued for `text`. -/
structure QueryOut where
  st : Chan
  fired : List (List LC)
  remote : Bool
deriving DecidableEq, Repr

/-- Result of a remote lookup's resolution handler: the state after it runs
and the payload passed to `callback`, or `none` when the callback is not
invoked. -/
structure ResolveOut where
  st : Chan
  fired : Option (List LC)
deriving DecidableEq, Repr

/-- `isLikelyName` for the mentions channel: nonempty, at most 85 characters,
none of `#<>[]|{}/@:`, at most 4 spaces. -/
def isLikelyNameMentions (text : LC) : Bool :=
  !text.isEmpty && text.length ≤ 85 &&
  !text.any (fun c => c = '#' || c = '<' || c = '>' || c = '[' || c = ']' ||
    c = '|' || c = '{' || c = '}' || c = '/' || c = '@' || c = ':') &&
  (text.filter (fun c => c = ' ')).length ≤ 4

/-- Synchronous part of the mentions collection's `values(text, callback)`. -/
def mentionsQuery (st : Chan) (text : LC) : QueryOut :=
  if !text.isEmpty && st.snapshot = text then ⟨st, [], false⟩
  else
    let st := if begs text st.snapshot then st else { st with cache := [] }
    let st := { st with snapshot := text }
    if subIn ['[', '['] text then ⟨st, [[]], false⟩
    else
      match btGet st.byText text with
      | some stored => ⟨st, [prepVals stored], false⟩
      | none =>
        let matchesL := acSearch text st.dflt
        let likely := isLikelyNameMentions text
        let values : List (Option LC) :=
          if likely then
            let base := if matchesL.isEmpty then matchesL ++ st.cache else matchesL
            setTenth ((acSearch text base).map some) (jsTrim text)
          else matchesL.map some
        ⟨st, [prepVals values], likely && matchesL.isEmpty⟩

/-- Resolution handler of the mentions remote lookup
(`getRelevantUserNames`).  `result` is `none` when the collaborator rejected
(the `catch` branch returns silently); `currentUserName` feeds the
`removeSelf` filter. -/
def mentionsResolve (st : Chan) (text : LC) (result : Option (List LC))
    (currentUserName : LC) : ResolveOut :=
  match result with
  | none => ⟨st, none⟩
  | some values =>
    let values := values.filter (fun v => v ≠ currentUserName)
    let cache := values
    let stored := setTenth (values.map some) (jsTrim text)
    let st := { st with cache := cache, byText := btPut st.byText text stored }
    if st.snapshot ≠ text then ⟨st, none⟩
    else ⟨st, some (prepVals stored)⟩

/-- `isLikelyName` for the wikilinks channel: nonempty, at most 255
characters, none of `#<>[]|{}`, a leading colon only when the colon-namespace
collaborator accepts it, at most 9 spaces. -/
def isLikelyNameWikilinks (colonTest : LC → Bool) (text : LC) : Bool :=
  !text.isEmpty && text.length ≤ 255 &&
  !text.any (fun c => c = '#' || c = '<' || c = '>' || c = '[' || c = ']' ||
    c = '|' || c = '{' || c = '}') &&
  (!begs text [':'] || colonTest text) &&
  (text.filter (fun c => c = ' ')).length ≤ 9

/-- Synchronous part of the wikilinks collection's `values(text, callback)`.
`colonTest` abstracts `cd.g.COLON_NAMESPACES_PREFIX_REGEXP.test`. -/
def wikilinksQuery (colonTest : LC → Bool) (st : Chan) (text : LC) : QueryOut :=
  let text := if colonTest text then text.drop 1 else text
  let st := if begs text st.snapshot then st else { st with cache := [] }
  let st := { st with snapshot := text }
  if subIn ['[', '['] text then ⟨st, [[]], false⟩
  else
    match btGet st.byText text with
    | some stored => ⟨st, [prepVals stored], false⟩
    | none =>
      let likely := isLikelyNameWikilinks colonTest text
      let values : List (Option LC) :=
        if likely then setTenth ((acSearch text st.cache).map some) (jsTrim text)
        else []
      ⟨st, [prepVals values], likely⟩

/-- Resolution handler of the wikilinks remote lookup
(`getRelevantPageNames`). -/
def wikilinksResolve (st : Chan) (text : LC) (result : Option (List LC)) : ResolveOut :=
  match result with
  | none => ⟨st, none⟩
  | some values =>
    let stored := setTenth (values.map some) (jsTrim text)
    let st := { st with cache := values, byText := btPut st.byText text stored }
    if st.snapshot ≠ text then ⟨st, none⟩
    else ⟨st, some (prepVals stored)⟩

/-- `isLikelyName` for the templates channel: nonempty, at most 255
characters, none of `#<>[]|{}`, at most 9 spaces. -/
def isLikelyNameTemplates (text : LC) : Bool :=
  !text.isEmpty && text.length ≤ 255 &&
  !text.any (fun c => c = '#' || c = '<' || c = '>' || c = '[' || c = ']' ||
    c = '|' || c = '{' || c = '}') &&
  (text.filter (fun c => c = ' ')).length ≤ 9

/-- Synchronous part of the templates collection's `values(text, callback)`. -/
def templatesQuery (st : Chan) (text : LC) : QueryOut :=
  let st := if begs text st.snapshot then st else { st with cache := [] }
  let st := { st with snapshot := text }
  if subIn ['{', '{'] text then ⟨st, [[]], false⟩
  else
    match btGet st.byText text with
    | some stored => ⟨st, [prepVals stored], false⟩
    | none =>
      let likely := isLikelyNameTemplates text
      let values : List (Option LC) :=
        if likely then setTenth ((acSearch text st.cache).map some) (jsTrim text)
        else []
      ⟨st, [prepVals values], likely⟩

/-- Resolution handler of the templates remote lookup
(`getRelevantTemplateNames`). -/
def templatesResolve (st : Chan) (text : LC) (result : Option (List LC)) : ResolveOut :=
  match result with
  | none => ⟨st, none⟩
  | some values =>
    let stored := setTenth (values.map some) (jsTrim text)
    let st := { st with cache := values, byText := btPut st.byText text stored }
    if st.snapshot ≠ text then ⟨st, none⟩
    else ⟨st, some (prepVals stored)⟩

/-!  The edit-failure classifier (`Page#edit`, non-network `CdError` branch). -/

/-- The `error` member of an edit API failure payload: the machine code plus
the branch-specific fields the classifier reads
(`error.spamblacklist.matches`, `error.abusefilter.description`,
`error.info`). -/
structure ApiErr where
  code : LC
  sbMatches : List LC
  afDescription : LC
  info : LC
deriving DecidableEq, Repr

/-- The raw failure payload (`apiData`); `error` may be absent. -/
structure ApiData where
  error : Option ApiErr
deriving DecidableEq, Repr

/-- The `logMessage` attached to the classified failure: `[code, apiData]`
when an error object is present, the bare `apiData` otherwise. -/
inductive LogMsg where
  | codeAndData (code : LC) (apiData : ApiData)
  | dataOnly (apiData : Option ApiData)
deriving DecidableEq, Repr

/-- The `details` of the classified edit failure. -/
structure EditErrDetails where
  code : Option LC
  message : Option LC
  isRawMessage : Bool
  logMessage : LogMsg
deriving DecidableEq, Repr

/-- Modelled from the spec: the localization collaborator `cd.s(key, ...args)`
(from `cd.js`, not among the given sources) producing a human-readable
message with the arguments embedded. -/
def cdS (key : LC) (args : List LC) : LC :=
  key ++ (args.map (fun a => ' ' :: a)).flatten

/-- Modelled from the spec: `unknownApiErrorText(code, info)` (from
`apiWrappers.js`, not among the given sources) — "an 'unknown' bucket that
includes whatever diagnostic text the collaborator provided", embedding
`info`. -/
def unknownApiErrorText (code info : LC) : LC :=
  code ++ ':' :: ' ' :: info

/-- `String(undefined)` for the `matches[0]` access on an empty list. -/
def undefinedLC : LC := ['u', 'n', 'd', 'e', 'f', 'i', 'n', 'e', 'd']

/-- Classifier of a non-network edit failure (the `else` branch of the
`CdError` handler in `Page#edit`).  `parsedHtml` abstracts the secondary
`parseCode` collaborator used by the abuse-filter branches (`none` = that
parse produced no `html`). -/
def classifyEditError (apiData : Option ApiData) (parsedHtml : Option LC) : EditErrDetails :=
  match apiData with
  | none => ⟨none, none, false, .dataOnly none⟩
  | some d =>
    match d.error with
    | none => ⟨none, none, false, .dataOnly (some d)⟩
    | some err =>
      let code := err.code
      if code = "spamblacklist".toList then
        ⟨some code, some (cdS "error-spamblacklist".toList [(err.sbMatches.head?).getD undefinedLC]),
          false, .codeAndData code d⟩
      else if code = "titleblacklist".toList then
        ⟨some code, some (cdS "error-titleblacklist".toList []), false, .codeAndData code d⟩
      else if code = "abusefilter-warning".toList ∨ code = "abusefilter-disallowed".toList then
        match parsedHtml with
        | some html => ⟨some code, some html, true, .codeAndData code d⟩
        | none =>
          ⟨some code, some (cdS "error-abusefilter".toList [err.afDescription]), false,
            .codeAndData code d⟩
      else if code = "editconflict".toList then
        ⟨some code, some (cdS "error-editconflict".toList []), false, .codeAndData code d⟩
      else if code = "blocked".toList then
        ⟨some code, some (cdS "error-blocked".toList []), false, .codeAndData code d⟩
      else if code = "missingtitle".toList then
        ⟨some code, some (cdS "error-pagedeleted".toList []), false, .codeAndData code d⟩
      else
        ⟨some code,
          some (cdS "error-pagenotedited".toList [] ++ ' ' :: unknownApiErrorText code err.info),
          false, .codeAndData code d⟩

/-- The machine codes with a dedicated classification branch. -/
def recognizedCodes : List LC :=
  ["spamblacklist".toList, "titleblacklist".toList, "abusefilter-warning".toList,
   "abusefilter-disallowed".toList, "editconflict".toList, "blocked".toList,
   "missingtitle".toList]

/-!  Visits packing (`options.js`). -/

/-- The line `packVisits` produces for one entry: `key`, a comma, the values
joined with commas. -/
def visitLine (e : LC × List LC) : LC :=
  e.1 ++ ',' :: joinCh ',' e.2

/-- `packVisits(visits)`: one newline-terminated line per entry, joined and
trimmed.  The visits object is modelled as its key-enumeration order
association list. -/
def packVisits (visits : List (LC × List LC)) : LC :=
  jsTrim ((visits.map (fun e => visitLine e ++ ['\n'])).flatten)

/-- Split a string at every ECMAScript line terminator: the maximal
terminator-free segments, which are exactly the spans a multiline
`^ ... $` match (whose interior `.` cannot cross a terminator) can cover. -/
def splitLines : LC → List LC
  | [] => [[]]
  | a :: r =>
    if isLineTerm a then [] :: splitLines r
    else
      match splitLines r with
      | l :: ls => (a :: l) :: ls
      | [] => [[a]]

/-- One `exec` of `/^(\d+), *(.+)$/gm` against a single line (as produced by
`splitLines`, so the line contains no line terminator): greedy digits, a
comma, greedy spaces (giving one back when `(.+)` would otherwise be empty),
the rest of the line. -/
def parseVisitLine (l : LC) : Option (LC × List LC) :=
  let ds := l.takeWhile isDigitB
  if ds.isEmpty then none
  else
    match l.drop ds.length with
    | ',' :: rest =>
      let sp := rest.takeWhile (fun c => c = ' ')
      let rest2 := rest.drop sp.length
      if !rest2.isEmpty then some (ds, splitOnCh ',' rest2)
      else if !sp.isEmpty then some (ds, [[' ']])
      else none
    | _ => none

/-- `unpackVisits(visitsString)`: the `/^(\d+), *(.+)$/gm` exec loop — every
line (multiline `^`/`$` honouring every ECMAScript line terminator) matching
the pattern contributes an entry, in order. -/
def unpackVisits (s : LC) : List (LC × List LC) :=
  (splitLines s).filterMap parseVisitLine

/-- Placement decision as the code's loop computes it: the pairwise tally over
the dated sections only (undated sections are skipped; the comparison carries
over the last dated section). -/
def skipPlacement (dates : List (Option Int)) (namespace0 : Int) : Bool :=
  let t := pairTally (dates.filterMap id)
  if t = 0 then namespace0 % 2 = 0 else t > 0

/-- Well-formedness of one visits entry: a nonempty all-digit key; a nonempty
value list of nonempty, comma-free strings containing no ECMAScript line
terminator (LF, CR, LS, PS); a first value not beginning with a space. -/
def entryOkB (e : LC × List LC) : Bool :=
  !e.1.isEmpty && e.1.all isDigitB && !e.2.isEmpty &&
  e.2.all (fun v => !v.isEmpty && !v.any (fun c => c = ',') && !v.any isLineTerm) &&
  (match e.2 with
   | [] => true
   | v :: _ => v.head? ≠ some ' ')

/-- The final value of the final entry must not end in JavaScript whitespace
(the `trim` in `packVisits` would otherwise eat it). -/
def lastOkB (l : List (LC × List LC)) : Bool :=
  match l.getLast? with
  | none => true
  | some e =>
    match e.2.getLast? with
    | none => true
    | some v =>
      match v.getLast? with
      | none => true
      | some c => !isWs c

/-!  Theorems. -/

theorem searchCmp_nonpos_of_begs (text x y : LC) (h : begsCI text x = true) :
    searchCmp text x y ≤ 0 := by
  unfold searchCmp
  split
  · omega
  · split
    · rename_i h2
      rw [h] at h2
      simp at h2
    · omega

theorem insCmp_front (text x : LC) (l : List LC) (h : begsCI text x = true) :
    insCmp (searchCmp text) x l = x :: l := by
  cases l with
  | nil => rfl
  | cons y ys =>
    unfold insCmp
    rw [if_pos (searchCmp_nonpos_of_begs text x y h)]

theorem insCmp_mid (text x : LC) (A B : List LC)
    (hA : ∀ y ∈ A, begsCI text y = true) (hB : ∀ y ∈ B, begsCI text y = false)
    (hx : begsCI text x = false) :
    insCmp (searchCmp text) x (A ++ B) = A ++ x :: B := by
  induction A with
  | nil =>
    simp only [List.nil_append]
    cases B with
    | nil => rfl
    | cons b bs =>
      unfold insCmp
      rw [if_pos]
      unfold searchCmp
      rw [hx, hB b (by simp)]
      simp
  | cons a as ih =>
    have ha : begsCI text a = true := hA a (by simp)
    simp only [List.cons_append]
    unfold insCmp
    rw [if_neg]
    · rw [ih (fun y hy => hA y (by simp [hy]))]
    · unfold searchCmp
      rw [hx, ha]
      simp

theorem jsSort_two_class (text : LC) (l : List LC) :
    jsSort (searchCmp text) l =
      l.filter (fun i => begsCI text i) ++ l.filter (fun i => !begsCI text i) := by
  induction l with
  | nil => rfl
  | cons x xs ih =>
    unfold jsSort at ih ⊢
    simp only [List.foldr_cons]
    rw [ih]
    by_cases hx : begsCI text x = true
    · rw [insCmp_front text x _ hx]
      simp [List.filter_cons, hx]
    · rw [Bool.not_eq_true] at hx
      rw [insCmp_mid text x _ _ (fun y hy => (List.mem_filter.mp hy).2)
        (fun y hy => by simpa using (List.mem_filter.mp hy).2) hx]
      simp [List.filter_cons, hx]

/-- C7: `search(text, list)` returns exactly the elements of `list` that
contain `text` case-insensitively, every position-0 match before every later
match, input order preserved within the two groups; in particular
`search("house", ["housekeeper", "built the house", "mouse"])` is
`["housekeeper", "built the house"]`. -/
theorem autocomplete_search_spec :
    (∀ text list, acSearch text list =
      (list.filter (fun i => ctnsCI text i)).filter (fun i => begsCI text i) ++
      (list.filter (fun i => ctnsCI text i)).filter (fun i => !begsCI text i)) ∧
    acSearch "house".toList
        ["housekeeper".toList, "built the house".toList, "mouse".toList] =
      ["housekeeper".toList, "built the house".toList] := by
  constructor
  · intro text list
    unfold acSearch
    exact jsSort_two_class text _
  · decide

/-- C1: on every remote-lookup channel, the resolution handler delivers the
remote result to the callback only if the channel's `snapshot` still equals
the originating query text at resolution; if the snapshot has been replaced,
the callback for that text never fires. -/
theorem remote_result_only_if_snapshot_current (st : Chan) (text : LC)
    (result : Option (List LC)) (currentUserName : LC)
    (h : st.snapshot ≠ text) :
    (mentionsResolve st text result currentUserName).fired = none ∧
    (wikilinksResolve st text result).fired = none ∧
    (templatesResolve st text result).fired = none := by
  cases result with
  | none => exact ⟨rfl, rfl, rfl⟩
  | some values =>
    refine ⟨?_, ?_, ?_⟩ <;>
      simp [mentionsResolve, wikilinksResolve, templatesResolve, h]

theorem remote_result_only_if_snapshot_current_witness :
    ((mentionsQuery (mentionsQuery ⟨[], [], [], []⟩ "Ja".toList).st "Jack".toList).st.snapshot ≠
        "Ja".toList) ∧
    (mentionsResolve (mentionsQuery (mentionsQuery ⟨[], [], [], []⟩ "Ja".toList).st
        "Jack".toList).st "Ja".toList (some ["Jabba".toList]) "me".toList).fired = none :=
  ⟨by decide,
   (remote_result_only_if_snapshot_current _ _ (some ["Jabba".toList]) "me".toList
     (by decide)).1⟩

/-- C5 counterexample: a stale resolution (snapshot `"Jack"`, originating text
`"Ja"`) does not fire the callback, yet it does overwrite the channel's
`cache` and add a `byText` entry — the stored state is not left unchanged. -/
theorem stale_resolution_still_stores :
    (mentionsResolve ⟨"Jack".toList, [], [], []⟩ "Ja".toList
        (some ["Jabba".toList]) "me".toList).fired = none ∧
    (mentionsResolve ⟨"Jack".toList, [], [], []⟩ "Ja".toList
        (some ["Jabba".toList]) "me".toList).st.cache ≠
      (⟨"Jack".toList, [], [], []⟩ : Chan).cache ∧
    (mentionsResolve ⟨"Jack".toList, [], [], []⟩ "Ja".toList
        (some ["Jabba".toList]) "me".toList).st.byText ≠
      (⟨"Jack".toList, [], [], []⟩ : Chan).byText := by
  decide

/-- C5 (amended): when a remote lookup resolves after the snapshot has moved
on, only the delivery is suppressed — the handler still stores the result
into `cache` and `byText[text]` before the staleness check. -/
theorem stale_resolution_updates_state (st : Chan) (text : LC) (values : List LC)
    (currentUserName : LC) (h : st.snapshot ≠ text) :
    mentionsResolve st text (some values) currentUserName =
      ⟨{ st with
          cache := values.filter (fun v => v ≠ currentUserName),
          byText := btPut st.byText text
            (setTenth ((values.filter (fun v => v ≠ currentUserName)).map some)
              (jsTrim text)) }, none⟩ ∧
    wikilinksResolve st text (some values) =
      ⟨{ st with
          cache := values,
          byText := btPut st.byText text (setTenth (values.map some) (jsTrim text)) },
        none⟩ := by
  constructor <;> simp [mentionsResolve, wikilinksResolve, h]

theorem stale_resolution_updates_state_witness :
    mentionsResolve ⟨"Jack".toList, [], [], []⟩ "Ja".toList (some ["Jabba".toList])
        "me".toList =
      ⟨{ (⟨"Jack".toList, [], [], []⟩ : Chan) with
          cache := ["Jabba".toList].filter (fun v => v ≠ "me".toList),
          byText := btPut [] "Ja".toList
            (setTenth ((["Jabba".toList].filter (fun v => v ≠ "me".toList)).map some)
              (jsTrim "Ja".toList)) }, none⟩ ∧
    wikilinksResolve ⟨"Jack".toList, [], [], []⟩ "Ja".toList (some ["Jabba".toList]) =
      ⟨{ (⟨"Jack".toList, [], [], []⟩ : Chan) with
          cache := ["Jabba".toList],
          byText := btPut [] "Ja".toList
            (setTenth (["Jabba".toList].map some) (jsTrim "Ja".toList)) }, none⟩ :=
  stale_resolution_updates_state ⟨"Jack".toList, [], [], []⟩ "Ja".toList
    ["Jabba".toList] "me".toList (by decide)

/-- C6 counterexample: on the mentions channel, a repeat of the same nonempty
query text is suppressed wholesale by the duplicate-event guard — even with
the result memoized in `byText`, no callback fires at all, so the repeat is
not "served synchronously from the memo". -/
theorem mentions_repeat_not_served_from_memo :
    btGet (⟨"Ja".toList, [], [("Ja".toList, [some "Jack".toList])], []⟩ : Chan).byText
        "Ja".toList = some [some "Jack".toList] ∧
    mentionsQuery ⟨"Ja".toList, [], [("Ja".toList, [some "Jack".toList])], []⟩
        "Ja".toList =
      ⟨⟨"Ja".toList, [], [("Ja".toList, [some "Jack".toList])], []⟩, [], false⟩ := by
  decide

/-- C6 (amended): two identical queries trigger at most one remote call, but
by different mechanisms.  On the mentions channel a repeated nonempty text is
suppressed entirely by the duplicate-event guard (no callback, no remote, no
state change); on the wikilinks and templates channels a repeat whose text is
memoized in `byText` is served synchronously from the memo with no remote
call. -/
theorem identical_query_no_second_remote :
    (∀ (st : Chan) (text : LC), text ≠ [] → st.snapshot = text →
      mentionsQuery st text = ⟨st, [], false⟩) ∧
    (∀ (colonTest : LC → Bool) (st : Chan) (text : LC) (stored : List (Option LC)),
      colonTest text = false → subIn ['[', '['] text = false →
      btGet st.byText text = some stored →
      (wikilinksQuery colonTest st text).fired = [prepVals stored] ∧
      (wikilinksQuery colonTest st text).remote = false) ∧
    (∀ (st : Chan) (text : LC) (stored : List (Option LC)),
      subIn ['{', '{'] text = false → btGet st.byText text = some stored →
      (templatesQuery st text).fired = [prepVals stored] ∧
      (templatesQuery st text).remote = false) := by
  refine ⟨?_, ?_, ?_⟩
  · intro st text h1 h2
    unfold mentionsQuery
    rw [if_pos]
    simp [h1, h2]
  · intro colonTest st text stored h1 h2 h3
    cases hb : begs text st.snapshot <;>
      simp [wikilinksQuery, h1, h2, h3, hb]
  · intro st text stored h1 h2
    cases hb : begs text st.snapshot <;>
      simp [templatesQuery, h1, h2, hb]

theorem identical_query_no_second_remote_witness :
    mentionsQuery ⟨"Ja".toList, [], [("Ja".toList, [some "Jack".toList])], []⟩
        "Ja".toList =
      ⟨⟨"Ja".toList, [], [("Ja".toList, [some "Jack".toList])], []⟩, [], false⟩ ∧
    (wikilinksQuery (fun _ => false)
        ⟨"Ja".toList, [], [("Ja".toList, [some "Jack".toList])], []⟩
        "Ja".toList).fired = [prepVals [some "Jack".toList]] ∧
    (wikilinksQuery (fun _ => false)
        ⟨"Ja".toList, [], [("Ja".toList, [some "Jack".toList])], []⟩
        "Ja".toList).remote = false :=
  ⟨identical_query_no_second_remote.1 _ _ (by decide) (by decide),
   (identical_query_no_second_remote.2.1 (fun _ => false)
      ⟨"Ja".toList, [], [("Ja".toList, [some "Jack".toList])], []⟩
      "Ja".toList [some "Jack".toList] rfl (by decide) (by decide)).1,
   (identical_query_no_second_remote.2.1 (fun _ => false)
      ⟨"Ja".toList, [], [("Ja".toList, [some "Jack".toList])], []⟩
      "Ja".toList [some "Jack".toList] rfl (by decide) (by decide)).2⟩

theorem tallyLoop_some (l : List (Option Int)) :
    ∀ p d, tallyLoop (some p) d l = d + pairTally (p :: l.filterMap id) := by
  induction l with
  | nil => intro p d; simp [tallyLoop, pairTally]
  | cons a r ih =>
    intro p d
    cases a with
    | none => simp [tallyLoop, ih]
    | some x =>
      simp only [tallyLoop, ih, List.filterMap_cons_some, pairTally]
      ring

theorem tallyLoop_none (l : List (Option Int)) :
    ∀ d, tallyLoop none d l = d + pairTally (l.filterMap id) := by
  induction l with
  | nil => intro d; simp [tallyLoop, pairTally]
  | cons a r ih =>
    intro d
    cases a with
    | none => simp [tallyLoop, ih]
    | some x => simp [tallyLoop, tallyLoop_some, List.filterMap_cons_some]

/-- C2 counterexample: a page with three section headings whose first
timestamps are `some 5`, missing, `some 3` (namespace 3).  The specification's
consecutive-pair tally is `0 + 0 = 0`, so it prescribes the namespace
tie-break (`false` for namespace 3); the code compares the two dated sections
across the undated one, gets `+1`, and returns `true`. -/
theorem placement_tally_pairwise_disagrees :
    analyzeNewTopicPlacement none ("== A ==\nx\n== B ==\nx\n== C ==\nx\n".toList) 3
        (fun p => if p = 0 then some 5 else if p = 20 then some 3 else none) =
      .ok (true, some 0) ∧
    specPlacement
        ((execAll (hideHtmlComments ("== A ==\nx\n== B ==\nx\n== C ==\nx\n".toList))).map
          (fun p => if p = 0 then some 5 else if p = 20 then some 3 else none)) 3 =
      false := by
  exact ⟨rfl, by decide⟩

/-- C2 (amended): with no per-site override and at least one matching section
heading, `analyzeNewTopicPlacement` tallies over consecutive **dated**
sections only (a section with no timestamp is skipped and the comparison
carries over the last dated one): `+1` when the lower section's date is not
later, `-1` when it is later; the tally decides top (`> 0`) / bottom (`< 0`),
and exactly zero falls back to "namespace is even". -/
theorem placement_tally_skips_undated (code : LC) (namespace0 : Int)
    (findDate : Nat → Option Int)
    (h : execAll (hideHtmlComments code) ≠ []) :
    analyzeNewTopicPlacement none code namespace0 findDate =
      .ok (skipPlacement ((execAll (hideHtmlComments code)).map findDate) namespace0,
        (execAll (hideHtmlComments code)).head?) := by
  unfold analyzeNewTopicPlacement skipPlacement
  cases hms : execAll (hideHtmlComments code) with
  | nil => exact absurd hms h
  | cons a as =>
    simp only [hms, List.head?_cons, reduceCtorEq, ite_not]
    rw [tallyLoop_none]
    simp only [Int.zero_add]
    rfl

theorem placement_tally_skips_undated_witness :
    analyzeNewTopicPlacement none ("== A ==\nx\n== B ==\nx\n== C ==\nx\n".toList) 3
        (fun p => if p = 0 then some 5 else if p = 20 then some 3 else none) =
      .ok (skipPlacement
          ((execAll (hideHtmlComments ("== A ==\nx\n== B ==\nx\n== C ==\nx\n".toList))).map
            (fun p => if p = 0 then some 5 else if p = 20 then some 3 else none)) 3,
        (execAll (hideHtmlComments ("== A ==\nx\n== B ==\nx\n== C ==\nx\n".toList))).head?) :=
  placement_tally_skips_undated _ 3 _ (by decide)

/-- C9: when `code` is set, the per-site override does not return `false`,
and no position of the comment-hidden code matches the second-level section
heading regex, `analyzeNewTopicPlacement` fails with the `TypeError` of
reading `.index` on a `null` match result instead of completing. -/
theorem placement_crashes_without_heading (override : Option Bool) (code : LC)
    (namespace0 : Int) (findDate : Nat → Option Int)
    (h1 : override ≠ some false) (h2 : execAll (hideHtmlComments code) = []) :
    analyzeNewTopicPlacement override code namespace0 findDate =
      .error "TypeError: Cannot read property of null" := by
  unfold analyzeNewTopicPlacement
  simp [h1, h2]

theorem placement_crashes_without_heading_witness :
    analyzeNewTopicPlacement none ("hello\nworld\n".toList) 3 (fun _ => none) =
      .error "TypeError: Cannot read property of null" :=
  placement_crashes_without_heading none _ 3 _ (by decide) (by decide)

theorem searchAuxAny_least :
    ∀ (i : Nat) (prev : Option Char) (s : LC) (pos : Nat),
      posMatchB prev s i = true → (∀ j, j < i → posMatchB prev s j = false) →
      searchAuxAny prev s pos = some (pos + i) := by
  intro i
  induction i with
  | zero =>
    intro prev s pos h _
    unfold searchAuxAny
    rw [if_pos (by simpa [posMatchB] using h)]
    simp
  | succ i ih =>
    intro prev s pos h hj
    have h0 : anyHeadB prev s = false := by
      simpa [posMatchB] using hj 0 (Nat.succ_pos i)
    cases s with
    | nil => simp [posMatchB] at h
    | cons c r =>
      unfold searchAuxAny
      rw [if_neg (by simp [h0])]
      have step := ih (some c) r (pos + 1) (by simpa [posMatchB] using h)
        (fun j hjlt => by
          have := hj (j + 1) (by omega)
          simpa [posMatchB] using this)
      change searchAuxAny (some c) r (pos + 1) = _
      rw [step]
      congr 1
      omega

theorem take_min (l : LC) (n : Nat) : l.take (min n l.length) = l.take n := by
  rcases Nat.le_total n l.length with h | h
  · rw [Nat.min_eq_left h]
  · rw [Nat.min_eq_right h, List.take_length, List.take_of_length_le h]

theorem drop_min (l : LC) (n : Nat) : l.drop (min n l.length) = l.drop n := by
  rcases Nat.le_total n l.length with h | h
  · rw [Nat.min_eq_left h]
  · rw [Nat.min_eq_right h, List.drop_of_length_le h, List.drop_of_length_le (le_refl _)]

/-- C3 counterexample: for page code `"x\n=A=\n== B ==\ny\n"` — which does
contain a level-2 section heading line (`== B ==`, the pattern's first match
is at index 6) — the code splits at index 2, the start of the line `=A=`,
because `modifyCode` uses `/^(=+).*?\1/m` (any heading level), not the
level-2 pattern the claim states; the two split results differ. -/
theorem modify_code_top_boundary_differs :
    (execAll (hideHtmlComments ("x\n=A=\n== B ==\ny\n".toList))) = [6] ∧
    (modifyCode ("x\n=A=\n== B ==\ny\n".toList) ("c".toList) true).1 ≠
      specModifyTop ("x\n=A=\n== B ==\ny\n".toList) ("c".toList) := by
  exact ⟨by decide, by decide⟩

/-- C3 (amended): with top placement, `modifyCode` splits the existing code at
the first position (on the comment-hidden variant, slices taken from the
original) where a line starts with `=` and contains a further `=` in the same
line — the leftmost multiline match of `/^(=+).*?\1/` (any heading level, not
only `== heading ==`) — and produces `before ++ comment ++ "\n" ++ after`. -/
theorem modify_code_top_splices_at_first_any_heading (pageCode commentCode : LC) (i : Nat)
    (h1 : posMatchB none (hideHtmlComments pageCode) i = true)
    (h2 : ∀ j, j < i → posMatchB none (hideHtmlComments pageCode) j = false) :
    (modifyCode pageCode commentCode true).1 =
      pageCode.take i ++ commentCode ++ '\n' :: pageCode.drop i := by
  have hs : searchAnyHeading (hideHtmlComments pageCode) = some i := by
    have := searchAuxAny_least i none (hideHtmlComments pageCode) 0 h1 h2
    simpa [searchAnyHeading] using this
  unfold modifyCode
  rw [if_pos rfl]
  simp only [hs, jsIdx]
  rw [if_neg (by omega)]
  simp only [Int.toNat_ofNat]
  rw [take_min, drop_min]

theorem modify_code_top_splices_at_first_any_heading_witness :
    (modifyCode ("x\n=A=\n== B ==\ny\n".toList) ("c".toList) true).1 =
      ("x\n=A=\n== B ==\ny\n".toList).take 2 ++ "c".toList ++
        '\n' :: ("x\n=A=\n== B ==\ny\n".toList).drop 2 :=
  modify_code_top_splices_at_first_any_heading _ _ 2 (by decide) (by decide)

theorem dropWhile_append_of_not_all (p q : LC) (h : ∃ c ∈ p, isWs c = false) :
    (p ++ q).dropWhile isWs = p.dropWhile isWs ++ q := by
  induction p with
  | nil => obtain ⟨c, hc, _⟩ := h; simp at hc
  | cons a r ih =>
    by_cases ha : isWs a = true
    · obtain ⟨c, hc, hcw⟩ := h
      have hcr : c ∈ r := by
        rcases List.mem_cons.mp hc with rfl | hcr
        · rw [ha] at hcw; simp at hcw
        · exact hcr
      simp only [List.cons_append, List.dropWhile_cons, ha, if_true]
      exact ih ⟨c, hcr, hcw⟩
    · rw [Bool.not_eq_true] at ha
      simp [List.dropWhile_cons, ha]

/-- C4 counterexample: for page code `"a\n"` (which already ends in a
newline) and comment `"c"`, bottom placement yields `"a\n\nc"` — two
newlines before the comment — while the claim's "exactly one trailing
newline, no duplicated trailing newline" form yields `"a\nc"`. -/
theorem modify_code_bottom_duplicates_newline :
    (modifyCode ("a\n".toList) ("c".toList) false).1 = "a\n\nc".toList ∧
    specModifyBottom ("a\n".toList) ("c".toList) = "a\nc".toList ∧
    (modifyCode ("a\n".toList) ("c".toList) false).1 ≠
      specModifyBottom ("a\n".toList) ("c".toList) := by
  decide

/-- C4 (amended): for every existing page code containing at least one
non-whitespace character, bottom placement produces the code with leading
whitespace removed, then exactly one **appended** newline (so code already
ending in a newline gets a blank separator line), then the comment wikitext
directly; the function is pure, so repeated calls are byte-identical. -/
theorem modify_code_bottom_appends_newline (pageCode commentCode : LC)
    (h : ∃ c ∈ pageCode, isWs c = false) :
    (modifyCode pageCode commentCode false).1 =
      (pageCode.dropWhile isWs ++ ['\n']) ++ commentCode ∧
    (modifyCode pageCode commentCode false).2 = pageCode.dropWhile isWs ++ ['\n'] := by
  unfold modifyCode jsTrimStart
  rw [if_neg (by simp)]
  rw [dropWhile_append_of_not_all pageCode ['\n'] h]
  exact ⟨rfl, rfl⟩

theorem modify_code_bottom_appends_newline_witness :
    (modifyCode ("a\n".toList) ("c".toList) false).1 =
      (("a\n".toList).dropWhile isWs ++ ['\n']) ++ "c".toList ∧
    (modifyCode ("a\n".toList) ("c".toList) false).2 =
      ("a\n".toList).dropWhile isWs ++ ['\n'] :=
  modify_code_bottom_appends_newline ("a\n".toList) ("c".toList) (by decide)

/-- C8: the edit-failure classifier maps code `spamblacklist` to the
spam-blacklist message with `matches[0]` embedded, and any code outside the
recognized set to the unknown-kind message with the collaborator's `info`
diagnostic embedded; in both cases the machine code and the raw payload are
attached as the log payload. -/
theorem edit_failure_classification
    (d1 : ApiData) (e1 : ApiErr) (ph1 : Option LC) (m : LC) (ms : List LC)
    (d2 : ApiData) (e2 : ApiErr) (ph2 : Option LC)
    (h1 : d1.error = some e1) (h2 : e1.code = "spamblacklist".toList)
    (h3 : e1.sbMatches = m :: ms)
    (h4 : d2.error = some e2) (h5 : e2.code ∉ recognizedCodes) :
    (classifyEditError (some d1) ph1 =
      ⟨some e1.code, some (cdS "error-spamblacklist".toList [m]), false,
        .codeAndData e1.code d1⟩ ∧
     ∃ pre post, cdS "error-spamblacklist".toList [m] = pre ++ m ++ post) ∧
    (classifyEditError (some d2) ph2 =
      ⟨some e2.code,
        some (cdS "error-pagenotedited".toList [] ++
          ' ' :: unknownApiErrorText e2.code e2.info),
        false, .codeAndData e2.code d2⟩ ∧
     ∃ pre post,
       cdS "error-pagenotedited".toList [] ++ ' ' :: unknownApiErrorText e2.code e2.info =
         pre ++ e2.info ++ post) := by
  simp only [recognizedCodes, List.mem_cons, List.not_mem_nil, or_false, not_or] at h5
  obtain ⟨hs, ht, haw, had, hec, hbl, hmt⟩ := h5
  constructor
  · constructor
    · simp only [classifyEditError, h1, h3, List.head?_cons, Option.getD_some]
      rw [if_pos h2]
    · exact ⟨"error-spamblacklist".toList ++ [' '], [], by simp [cdS]⟩
  · constructor
    · simp only [classifyEditError, h4]
      split_ifs with c1
      · rcases c1 with c1 | c1
        · exact absurd c1 haw
        · exact absurd c1 had
      · rfl
    · exact ⟨cdS "error-pagenotedited".toList [] ++ ' ' :: (e2.code ++ [':', ' ']), [],
        by simp [cdS, unknownApiErrorText]⟩

theorem digit_char_props (c : Char) (h : isDigitB c = true) :
    isWs c = false ∧ isLineTerm c = false ∧ c ≠ ',' := by
  simp only [isDigitB, Bool.and_eq_true, decide_eq_true_eq] at h
  refine ⟨?_, ?_, ?_⟩
  · cases hws : isWs c with
    | false => rfl
    | true =>
      simp only [isWs, Bool.or_eq_true, Bool.and_eq_true, decide_eq_true_eq] at hws
      omega
  · cases hlt : isLineTerm c with
    | false => rfl
    | true =>
      simp only [isLineTerm, Bool.or_eq_true, decide_eq_true_eq] at hlt
      omega
  · intro hc
    rw [hc] at h
    exact absurd h.1 (by decide)

theorem takeWhile_all_append (p : Char → Bool) (k : LC) (b : Char) (t : LC)
    (hk : ∀ a ∈ k, p a = true) (hb : p b = false) :
    (k ++ b :: t).takeWhile p = k := by
  induction k with
  | nil => simp [List.takeWhile_cons, hb]
  | cons a r ih =>
    have ha := hk a (List.mem_cons_self a r)
    simp [List.takeWhile_cons, ha,
      ih (fun x hx => hk x (List.mem_cons_of_mem a hx))]

theorem takeWhile_eq_nil_of_head (p : Char → Bool) (l : LC) (a : Char)
    (h : l.head? = some a) (ha : p a = false) : l.takeWhile p = [] := by
  cases l with
  | nil => rfl
  | cons x r =>
    obtain rfl : x = a := by simpa using h
    simp [List.takeWhile_cons, ha]

theorem splitOnCh_no (c : Char) (x : LC) (h : ∀ a ∈ x, a ≠ c) :
    splitOnCh c x = [x] := by
  induction x with
  | nil => rfl
  | cons a r ih =>
    unfold splitOnCh
    rw [if_neg (h a (List.mem_cons_self a r))]
    rw [ih (fun y hy => h y (List.mem_cons_of_mem a hy))]

theorem splitOnCh_append (c : Char) (x rest : LC) (h : ∀ a ∈ x, a ≠ c) :
    splitOnCh c (x ++ c :: rest) = x :: splitOnCh c rest := by
  induction x with
  | nil => simp [splitOnCh]
  | cons a r ih =>
    simp only [List.cons_append]
    rw [show splitOnCh c (a :: (r ++ c :: rest)) =
      (if a = c then [] :: splitOnCh c (r ++ c :: rest)
       else match splitOnCh c (r ++ c :: rest) with
            | l :: ls => (a :: l) :: ls
            | [] => [[a]]) from rfl]
    rw [if_neg (h a (List.mem_cons_self a r))]
    rw [ih (fun y hy => h y (List.mem_cons_of_mem a hy))]

theorem splitLines_no (x : LC) (h : ∀ a ∈ x, isLineTerm a = false) :
    splitLines x = [x] := by
  induction x with
  | nil => rfl
  | cons a r ih =>
    unfold splitLines
    rw [if_neg (by simp [h a (List.mem_cons_self a r)])]
    rw [ih (fun y hy => h y (List.mem_cons_of_mem a hy))]

theorem splitLines_append (x rest : LC) (h : ∀ a ∈ x, isLineTerm a = false) :
    splitLines (x ++ '\n' :: rest) = x :: splitLines rest := by
  induction x with
  | nil =>
    simp only [List.nil_append]
    rw [show splitLines ('\n' :: rest) =
      (if isLineTerm '\n' then [] :: splitLines rest
       else match splitLines rest with
            | l :: ls => ('\n' :: l) :: ls
            | [] => [['\n']]) from rfl]
    rw [if_pos (by decide)]
  | cons a r ih =>
    simp only [List.cons_append]
    rw [show splitLines (a :: (r ++ '\n' :: rest)) =
      (if isLineTerm a then [] :: splitLines (r ++ '\n' :: rest)
       else match splitLines (r ++ '\n' :: rest) with
            | l :: ls => (a :: l) :: ls
            | [] => [[a]]) from rfl]
    rw [if_neg (by simp [h a (List.mem_cons_self a r)])]
    rw [ih (fun y hy => h y (List.mem_cons_of_mem a hy))]

theorem joinLines_split (xs : List LC) :
    xs ≠ [] → (∀ x ∈ xs, ∀ a ∈ x, isLineTerm a = false) →
    splitLines (joinCh '\n' xs) = xs := by
  induction xs with
  | nil => intro h _; exact absurd rfl h
  | cons x r ih =>
    intro _ h
    cases r with
    | nil =>
      simpa [joinCh] using splitLines_no x (fun a ha => h x (List.mem_cons_self x []) a ha)
    | cons y ys =>
      show splitLines (x ++ '\n' :: joinCh '\n' (y :: ys)) = x :: y :: ys
      rw [splitLines_append x _ (fun a ha => h x (List.mem_cons_self x _) a ha)]
      rw [ih (by simp) (fun z hz a ha => h z (List.mem_cons_of_mem x hz) a ha)]

theorem join_split (c : Char) (xs : List LC) :
    xs ≠ [] → (∀ x ∈ xs, ∀ a ∈ x, a ≠ c) →
    splitOnCh c (joinCh c xs) = xs := by
  induction xs with
  | nil => intro h _; exact absurd rfl h
  | cons x r ih =>
    intro _ h
    cases r with
    | nil =>
      simpa [joinCh] using splitOnCh_no c x (fun a ha => h x (List.mem_cons_self x []) a ha)
    | cons y ys =>
      show splitOnCh c (x ++ c :: joinCh c (y :: ys)) = x :: y :: ys
      rw [splitOnCh_append c x _ (fun a ha => h x (List.mem_cons_self x _) a ha)]
      rw [ih (by simp) (fun z hz a ha => h z (List.mem_cons_of_mem x hz) a ha)]

theorem joinCh_mem (c : Char) (xs : List LC) :
    ∀ a ∈ joinCh c xs, a = c ∨ ∃ x ∈ xs, a ∈ x := by
  induction xs with
  | nil => intro a ha; simp [joinCh] at ha
  | cons x r ih =>
    intro a ha
    cases r with
    | nil => exact Or.inr ⟨x, by simp, by simpa [joinCh] using ha⟩
    | cons y ys =>
      rw [show joinCh c (x :: y :: ys) = x ++ c :: joinCh c (y :: ys) from rfl] at ha
      rcases List.mem_append.mp ha with hx | hcr
      · exact Or.inr ⟨x, by simp, hx⟩
      · rcases List.mem_cons.mp hcr with rfl | hr
        · exact Or.inl rfl
        · rcases ih a hr with h | ⟨z, hz, haz⟩
          · exact Or.inl h
          · exact Or.inr ⟨z, List.mem_cons_of_mem x hz, haz⟩

theorem flat_lines (xs : List LC) :
    xs ≠ [] → (xs.map (fun x => x ++ ['\n'])).flatten = joinCh '\n' xs ++ ['\n'] := by
  induction xs with
  | nil => intro h; exact absurd rfl h
  | cons x r ih =>
    intro _
    cases r with
    | nil => simp [joinCh]
    | cons y ys =>
      have ihy := ih (by simp)
      simp only [List.map_cons, List.flatten_cons] at ihy ⊢
      rw [ihy]
      show x ++ ['\n'] ++ (joinCh '\n' (y :: ys) ++ ['\n']) =
        (x ++ '\n' :: joinCh '\n' (y :: ys)) ++ ['\n']
      simp

theorem jsTrim_sandwich (z : LC) (d e : Char) (hh : z.head? = some d)
    (hd : isWs d = false) (hl : z.getLast? = some e) (he : isWs e = false) :
    jsTrim (z ++ ['\n']) = z := by
  unfold jsTrim
  have h1 : (z ++ ['\n']).dropWhile isWs = z ++ ['\n'] := by
    cases z with
    | nil => simp at hh
    | cons a t =>
      obtain rfl : a = d := by simpa using hh
      simp [List.dropWhile_cons, hd]
  rw [h1, List.reverse_append]
  show (List.dropWhile isWs ('\n' :: z.reverse)).reverse = z
  rw [List.dropWhile_cons, if_pos (by decide)]
  have h2 : z.reverse.dropWhile isWs = z.reverse := by
    cases hzr : z.reverse with
    | nil => rfl
    | cons a t =>
      have hre : z.reverse.head? = some e := by rw [List.head?_reverse]; exact hl
      rw [hzr] at hre
      obtain rfl : a = e := by simpa using hre
      simp [List.dropWhile_cons, he]
  rw [h2, List.reverse_reverse]

theorem joinCh_head (c : Char) (x : LC) (xs : List LC) (hx : x ≠ []) :
    (joinCh c (x :: xs)).head? = x.head? := by
  cases xs with
  | nil => rfl
  | cons y ys =>
    show (x ++ c :: joinCh c (y :: ys)).head? = x.head?
    exact List.head?_append_of_ne_nil x hx

theorem joinCh_last (c : Char) (xs : List LC) :
    ∀ x, xs.getLast? = some x → x ≠ [] →
    (joinCh c xs).getLast? = x.getLast? := by
  induction xs with
  | nil => intro x h; simp at h
  | cons y ys ih =>
    intro x h hx
    cases ys with
    | nil =>
      obtain rfl : y = x := by simpa using h
      rfl
    | cons z zs =>
      have h' : (z :: zs).getLast? = some x := by
        rw [List.getLast?_cons_cons] at h
        exact h
      have hj : (joinCh c (z :: zs)).getLast? = x.getLast? := ih x h' hx
      obtain ⟨w, hw⟩ : ∃ w, x.getLast? = some w := by
        cases hxl : x.getLast? with
        | none =>
          have := List.getLast?_isSome.mpr hx
          rw [hxl] at this
          simp at this
        | some w => exact ⟨w, rfl⟩
      show (y ++ c :: joinCh c (z :: zs)).getLast? = x.getLast?
      have hcj : (c :: joinCh c (z :: zs)).getLast? = some w := by
        show (([c] ++ joinCh c (z :: zs))).getLast? = some w
        rw [List.getLast?_append, hj, hw]
        rfl
      rw [List.getLast?_append, hcj, hw]
      rfl

theorem filterMap_map_eq_self (l : List (LC × List LC))
    (h : ∀ e ∈ l, parseVisitLine (visitLine e) = some e) :
    (l.map visitLine).filterMap parseVisitLine = l := by
  induction l with
  | nil => rfl
  | cons e r ih =>
    simp only [List.map_cons]
    rw [List.filterMap_cons_some (h e (List.mem_cons_self e r))]
    rw [ih (fun x hx => h x (List.mem_cons_of_mem e hx))]

theorem entryOk_props (e : LC × List LC) (h : entryOkB e = true) :
    e.1 ≠ [] ∧ (∀ a ∈ e.1, isDigitB a = true) ∧ e.2 ≠ [] ∧
    (∀ v ∈ e.2, v ≠ [] ∧ (∀ a ∈ v, a ≠ ',') ∧ (∀ a ∈ v, isLineTerm a = false)) ∧
    (∀ v, e.2.head? = some v → v.head? ≠ some ' ') := by
  obtain ⟨k, vs⟩ := e
  simp only [entryOkB, Bool.and_eq_true, List.all_eq_true, Bool.not_eq_true',
    List.isEmpty_eq_false, List.any_eq_false, decide_eq_true_eq] at h
  obtain ⟨⟨⟨⟨hk, hkd⟩, hvs⟩, hval⟩, hhd⟩ := h
  refine ⟨hk, hkd, hvs, ?_, ?_⟩
  · intro v hv
    obtain ⟨⟨h1, h2⟩, h3⟩ := hval v hv
    exact ⟨by simpa using h1, h2, fun a ha => by simpa using h3 a ha⟩
  · intro v hv
    cases vs with
    | nil => simp at hv
    | cons v0 vs' =>
      obtain rfl : v0 = v := by simpa using hv
      simpa using hhd

theorem parse_visitLine (k : LC) (vs : List LC)
    (hk : k ≠ []) (hkd : ∀ a ∈ k, isDigitB a = true)
    (hvs : vs ≠ []) (hvne : ∀ v ∈ vs, v ≠ []) (hvc : ∀ v ∈ vs, ∀ a ∈ v, a ≠ ',')
    (hhead : ∀ v, vs.head? = some v → v.head? ≠ some ' ') :
    parseVisitLine (visitLine (k, vs)) = some (k, vs) := by
  obtain ⟨v0, vs', rfl⟩ : ∃ v0 vs', vs = v0 :: vs' := by
    cases vs with
    | nil => exact absurd rfl hvs
    | cons a b => exact ⟨a, b, rfl⟩
  have hjoin : visitLine (k, v0 :: vs') = k ++ ',' :: joinCh ',' (v0 :: vs') := rfl
  unfold parseVisitLine
  rw [hjoin]
  rw [takeWhile_all_append isDigitB k ',' _ hkd (by decide)]
  rw [if_neg (by simp [hk])]
  rw [List.drop_left]
  show (let sp := (joinCh ',' (v0 :: vs')).takeWhile (fun c => c = ' ')
        let rest2 := (joinCh ',' (v0 :: vs')).drop sp.length
        if !rest2.isEmpty then some (k, splitOnCh ',' rest2)
        else if !sp.isEmpty then some (k, [[' ']])
        else none) = some (k, v0 :: vs')
  obtain ⟨a0, t0, rfl⟩ : ∃ a0 t0, v0 = a0 :: t0 := by
    cases hv0 : v0 with
    | nil => exact absurd hv0 (hvne v0 (List.mem_cons_self v0 vs'))
    | cons a b => exact ⟨a, b, rfl⟩
  have hh : (joinCh ',' ((a0 :: t0) :: vs')).head? = some a0 :=
    joinCh_head ',' (a0 :: t0) vs' (by simp)
  have ha0 : a0 ≠ ' ' := by
    have := hhead (a0 :: t0) rfl
    simp at this
    exact this
  have hsp : (joinCh ',' ((a0 :: t0) :: vs')).takeWhile (fun c => c = ' ') = [] :=
    takeWhile_eq_nil_of_head _ _ a0 hh (by simp [ha0])
  simp only [hsp, List.length_nil, List.drop_zero, List.isEmpty_nil]
  rw [show ((joinCh ',' ((a0 :: t0) :: vs')).isEmpty = false) from by
    cases hj : joinCh ',' ((a0 :: t0) :: vs') with
    | nil => rw [hj] at hh; simp at hh
    | cons a b => rfl]
  simp only [Bool.not_false, if_true]
  rw [join_split ',' _ (by simp) (fun x hx a ha => hvc x hx a ha)]

/-- C10 counterexample: the entry `{"1": [" x"]}` satisfies the claim's
preconditions (digit key, nonempty value, no commas, no newlines), yet the
`, *` in `unpackVisits`' regex eats the first value's leading space: the
round-trip returns `{"1": ["x"]}`. -/
theorem pack_unpack_not_roundtrip :
    unpackVisits (packVisits [("1".toList, [" x".toList])]) =
      [("1".toList, ["x".toList])] ∧
    unpackVisits (packVisits [("1".toList, [" x".toList])]) ≠
      [("1".toList, [" x".toList])] := by
  decide

/-- C10 (amended): `unpackVisits ∘ packVisits` is the identity on visits
objects (modelled as their key-enumeration association lists) whose keys are
nonempty digit strings and whose values are nonempty lists of nonempty,
comma-free strings containing no ECMAScript line terminator (LF, CR, LS,
PS — the unpack regex's multiline `^`/`$` and `.` treat all of them as line
boundaries), provided additionally that the first value of each entry does
not begin with a space (the regex `, *` would eat it) and the final value of
the final entry does not end in whitespace (the `trim` in `packVisits` would
eat it). -/
theorem pack_unpack_roundtrip (l : List (LC × List LC))
    (h1 : ∀ e ∈ l, entryOkB e = true) (h2 : lastOkB l = true) :
    unpackVisits (packVisits l) = l := by
  cases l with
  | nil => rfl
  | cons e0 l' =>
    have hprops : ∀ e ∈ e0 :: l', e.1 ≠ [] ∧ (∀ a ∈ e.1, isDigitB a = true) ∧
        e.2 ≠ [] ∧
        (∀ v ∈ e.2, v ≠ [] ∧ (∀ a ∈ v, a ≠ ',') ∧ (∀ a ∈ v, isLineTerm a = false)) ∧
        (∀ v, e.2.head? = some v → v.head? ≠ some ' ') :=
      fun e he => entryOk_props e (h1 e he)
    have hnonl : ∀ x ∈ (e0 :: l').map visitLine, ∀ a ∈ x, isLineTerm a = false := by
      intro x hx a ha
      obtain ⟨e, he, rfl⟩ := List.mem_map.mp hx
      obtain ⟨hk, hkd, hv2, hval, _⟩ := hprops e he
      have ha' : a ∈ e.1 ∨ a = ',' ∨ a ∈ joinCh ',' e.2 := by
        simpa [visitLine] using ha
      rcases ha' with hk1 | rfl | hj
      · exact (digit_char_props a (hkd a hk1)).2.1
      · decide
      · rcases joinCh_mem ',' e.2 a hj with rfl | ⟨v, hv, hav⟩
        · decide
        · exact (hval v hv).2.2 a hav
    have hlinene : ∀ e ∈ e0 :: l', visitLine e ≠ [] := by
      intro e he
      obtain ⟨hk, _⟩ := hprops e he
      cases hke : e.1 with
      | nil => exact absurd hke hk
      | cons a b => simp [visitLine, hke]
    have hpack : packVisits (e0 :: l') = joinCh '\n' ((e0 :: l').map visitLine) := by
      unfold packVisits
      rw [show ((e0 :: l').map (fun e => visitLine e ++ ['\n'])) =
          (((e0 :: l').map visitLine).map (fun x => x ++ ['\n'])) by
        rw [List.map_map]; rfl]
      rw [flat_lines _ (by simp)]
      obtain ⟨hk0, hkd0, _, _, _⟩ := hprops e0 (List.mem_cons_self e0 l')
      obtain ⟨d0, k0t, hk0e⟩ : ∃ d t, e0.1 = d :: t := by
        cases h : e0.1 with
        | nil => exact absurd h hk0
        | cons a b => exact ⟨a, b, rfl⟩
      have hhead : (joinCh '\n' ((e0 :: l').map visitLine)).head? = some d0 := by
        rw [show (e0 :: l').map visitLine = visitLine e0 :: l'.map visitLine from rfl]
        rw [joinCh_head '\n' _ _ (hlinene e0 (List.mem_cons_self e0 l'))]
        show (e0.1 ++ ',' :: joinCh ',' e0.2).head? = some d0
        rw [List.head?_append_of_ne_nil _ hk0, hk0e]
        rfl
      obtain ⟨elast, helast⟩ : ∃ e, (e0 :: l').getLast? = some e :=
        Option.isSome_iff_exists.mp (List.getLast?_isSome.mpr (by simp))
      have helmem : elast ∈ e0 :: l' := List.mem_of_mem_getLast? helast
      obtain ⟨_, _, hv2last, hvallast, _⟩ := hprops elast helmem
      obtain ⟨lv, hlv⟩ : ∃ v, elast.2.getLast? = some v :=
        Option.isSome_iff_exists.mp (List.getLast?_isSome.mpr hv2last)
      have hlvne : lv ≠ [] := (hvallast lv (List.mem_of_mem_getLast? hlv)).1
      obtain ⟨ca, hlva⟩ : ∃ a, lv.getLast? = some a :=
        Option.isSome_iff_exists.mp (List.getLast?_isSome.mpr hlvne)
      have hcaws : isWs ca = false := by
        have h2' := h2
        unfold lastOkB at h2'
        simp only [helast, hlv, hlva] at h2'
        simpa using h2'
      have hjoinlast : (joinCh ',' elast.2).getLast? = some ca := by
        rw [joinCh_last ',' elast.2 lv hlv hlvne, hlva]
      have hvl : (visitLine elast).getLast? = some ca := by
        show (elast.1 ++ ',' :: joinCh ',' elast.2).getLast? = some ca
        rw [List.getLast?_append]
        rw [show (',' :: joinCh ',' elast.2).getLast? = some ca from by
          show (([','] ++ joinCh ',' elast.2)).getLast? = some ca
          rw [List.getLast?_append, hjoinlast]
          rfl]
        rfl
      have hlast : (joinCh '\n' ((e0 :: l').map visitLine)).getLast? = some ca := by
        rw [joinCh_last '\n' _ (visitLine elast) ?_ (hlinene elast helmem)]
        · exact hvl
        · rw [List.getLast?_map, helast]
          rfl
      exact jsTrim_sandwich _ d0 ca hhead
        (digit_char_props d0 (hkd0 d0 (by rw [hk0e]; exact List.mem_cons_self d0 k0t))).1
        hlast hcaws
    rw [hpack]
    unfold unpackVisits
    rw [joinLines_split _ (by simp) hnonl]
    apply filterMap_map_eq_self
    intro e he
    obtain ⟨hk, hkd, hv2, hval, hhd⟩ := hprops e he
    exact parse_visitLine e.1 e.2 hk hkd hv2 (fun v hv => (hval v hv).1)
      (fun v hv => (hval v hv).2.1) hhd

theorem pack_unpack_roundtrip_witness :
    unpackVisits (packVisits
        [("12".toList, ["a".toList, " b".toList]), ("3".toList, ["c d".toList])]) =
      [("12".toList, ["a".toList, " b".toList]), ("3".toList, ["c d".toList])] :=
  pack_unpack_roundtrip
    [("12".toList, ["a".toList, " b".toList]), ("3".toList, ["c d".toList])]
    (by decide) (by decide)

theorem edit_failure_classification_witness :
    (classifyEditError
        (some ⟨some ⟨"spamblacklist".toList, ["http-x".toList], [], "i1".toList⟩⟩) none =
      ⟨some "spamblacklist".toList,
        some (cdS "error-spamblacklist".toList ["http-x".toList]), false,
        .codeAndData "spamblacklist".toList
          ⟨some ⟨"spamblacklist".toList, ["http-x".toList], [], "i1".toList⟩⟩⟩ ∧
     ∃ pre post,
       cdS "error-spamblacklist".toList ["http-x".toList] =
         pre ++ "http-x".toList ++ post) ∧
    (classifyEditError
        (some ⟨some ⟨"weird".toList, [], [], "oops".toList⟩⟩) none =
      ⟨some "weird".toList,
        some (cdS "error-pagenotedited".toList [] ++
          ' ' :: unknownApiErrorText "weird".toList "oops".toList),
        false, .codeAndData "weird".toList
          ⟨some ⟨"weird".toList, [], [], "oops".toList⟩⟩⟩ ∧
     ∃ pre post,
       cdS "error-pagenotedited".toList [] ++
           ' ' :: unknownApiErrorText "weird".toList "oops".toList =
         pre ++ "oops".toList ++ post) :=
  edit_failure_classification
    ⟨some ⟨"spamblacklist".toList, ["http-x".toList], [], "i1".toList⟩⟩
    ⟨"spamblacklist".toList, ["http-x".toList], [], "i1".toList⟩ none
    "http-x".toList []
    ⟨some ⟨"weird".toList, [], [], "oops".toList⟩⟩
    ⟨"weird".toList, [], [], "oops".toList⟩ none
    rfl rfl rfl rfl (by decide)
